import Mathlib

/-!
Verification of the MILP-based dynamic-controllability checker (`dc_milp.py`).

The development shallowly embeds the checker:
* temporal constraints (`TCon`) mirror `SimpleTemporalConstraint` /
  `SimpleContingentTemporalConstraint`; a `TemporalNetwork` is its ordered
  list of constraints (the network type itself lives outside the checker
  module and is modelled from the spec where needed);
* `preprocess_network` mirrors the normalization pass line by line, with the
  two Python counter dictionaries modelled as functions `String → Option Nat`
  (the dictionaries are only read and written pointwise, never iterated);
* the variable tables and the eight constraint families of
  `add_variables_to_model` / `add_constraints_to_model` are embedded as
  key lists and as lists of symbolic linear constraints (`MConstr`);
* `solve_dc` / `is_controllable` are embedded as functions of the external
  solver's outcome, which is a parameter (the solver is an external
  collaborator reached only through optimize/status/IIS).
-/

/-- Temporal constraints of the network.  `req` embeds Python's
`SimpleTemporalConstraint(s, e, lb, ub, name)` (either bound may be `None`),
`ctg` embeds `SimpleContingentTemporalConstraint(s, e, lb, ub, name)` (both
bounds present). -/
inductive TCon
  | req (s e : String) (lb ub : Option ℚ) (name : String)
  | ctg (s e : String) (lb ub : ℚ) (name : String)
deriving DecidableEq, Repr

/-- Source event `c.s` of a constraint. -/
def TCon.s : TCon → String
  | .req s _ _ _ _ => s
  | .ctg s _ _ _ _ => s

/-- Sink event `c.e` of a constraint. -/
def TCon.e : TCon → String
  | .req _ e _ _ _ => e
  | .ctg _ e _ _ _ => e

/-- Python's `isinstance(c, SimpleContingentTemporalConstraint)`. -/
def TCon.isCtg : TCon → Bool
  | .req _ _ _ _ _ => false
  | .ctg _ _ _ _ _ => true

/-- The contingent constraints of a constraint list, in order. -/
def ctgs (cs : List TCon) : List TCon := cs.filter TCon.isCtg

/-- Sources of the contingent constraints, in order. -/
def ctgSrcs (cs : List TCon) : List String := (ctgs cs).map TCon.s

/-- Sinks of the contingent constraints (the uncontrollable events), in order. -/
def ctgSinks (cs : List TCon) : List String := (ctgs cs).map TCon.e

/-- Every event mentioned by some constraint (with repetitions). -/
def allEvents (cs : List TCon) : List String := cs.flatMap (fun c => [c.s, c.e])

/-- Modelled from the spec: `TemporalNetwork.get_events` returns the set of
events of the network, derived from its constraints (spec section 6,
"events() → set<Event>"; the network data structure itself is an external
collaborator).  Modelled as the first-occurrence-ordered list of constraint
endpoints; `addIfNew` appends an event unless already present. -/
def addIfNew (acc : List String) (x : String) : List String :=
  if x ∈ acc then acc else acc ++ [x]

/-- Modelled from the spec: the derived event set itself (see `addIfNew`). -/
def get_events (cs : List TCon) : List String :=
  cs.foldl (fun acc c => addIfNew (addIfNew acc c.s) c.e) []

/-- Counter dictionaries of `preprocess_network`
(`uncontrollable_to_num_contingent`, `source_to_num_contingent`), modelled as
functions since the code only reads and updates them pointwise. -/
def Dict : Type := String → Option Nat

/-- The empty dictionary. -/
def dempty : Dict := fun _ => none

/-- Pointwise dictionary update `m[k] = v`. -/
def dset (m : Dict) (k : String) (v : Nat) : Dict :=
  fun k' => if k' = k then some v else m k'

/-- Name of a synthesized copy event: Python's `c.s + str(num_contingent)`. -/
def copyName (s : String) (n : Nat) : String := s ++ toString n

/-- Name of an injected equality constraint:
`'equality({},{})'.format(c.s, source_copy)`. -/
def equalityName (s copy : String) : String :=
  "equality(" ++ s ++ "," ++ copy ++ ")"

/-- State of the `preprocess_network` loop: the two counter dictionaries and
the constraints added to the output network so far. -/
structure PPState where
  uMap : Dict
  sMap : Dict
  out : List TCon

/-- One iteration of the `for c in constraints` loop of `preprocess_network`
(dc_milp.py lines 41-71). -/
def ppStep (st : PPState) (c : TCon) : PPState :=
  match c with
  | TCon.ctg s e lb ub name =>
    match st.uMap s with
    | some n =>
      -- contingent link starts from an uncontrollable event
      let copy := copyName s n
      { uMap := dset st.uMap s (n + 1), sMap := st.sMap,
        out := st.out ++ [TCon.req s copy (some 0) (some 0) (equalityName s copy),
                          TCon.ctg copy e lb ub name] }
    | none =>
      match st.sMap s with
      | some n =>
        -- source event already has another contingent link
        let copy := copyName s n
        { uMap := st.uMap, sMap := dset st.sMap s (n + 1),
          out := st.out ++ [TCon.req s copy (some 0) (some 0) (equalityName s copy),
                            TCon.ctg copy e lb ub name] }
      | none =>
        { uMap := st.uMap, sMap := dset st.sMap s 1, out := st.out ++ [c] }
  | TCon.req _ _ _ _ _ => { st with out := st.out ++ [c] }

/-- The first scan of `preprocess_network`: record every uncontrollable event
(`uncontrollable_to_num_contingent[c.e] = 1`). -/
def initUMap (cs : List TCon) : Dict :=
  cs.foldl (fun m c =>
    match c with
    | TCon.ctg _ e _ _ _ => dset m e 1
    | TCon.req _ _ _ _ _ => m) dempty

/-- Embedding of `DCCheckerMILP.preprocess_network` on the network's ordered
constraint list (the output network is its list of added constraints). -/
def preprocess_network (cs : List TCon) : List TCon :=
  (cs.foldl ppStep ⟨initUMap cs, dempty, []⟩).out

-- sanity checks of the embedding on concrete networks
example :
    preprocess_network [TCon.ctg "A" "C" 1 2 "c", TCon.ctg "A" "D" 3 4 "d"] =
      [TCon.ctg "A" "C" 1 2 "c",
       TCon.req "A" "A1" (some 0) (some 0) "equality(A,A1)",
       TCon.ctg "A1" "D" 3 4 "d"] := by decide

example :
    preprocess_network [TCon.ctg "B" "A" 1 2 "c1", TCon.ctg "A" "C" 1 2 "c2"] =
      [TCon.ctg "B" "A" 1 2 "c1",
       TCon.req "A" "A1" (some 0) (some 0) "equality(A,A1)",
       TCon.ctg "A1" "C" 1 2 "c2"] := by decide

/-- The constant `self.MAX_NUMERIC_BOUND`, set to `100000` in `DCCheckerMILP.__init__`. -/
def MAX_NUMERIC_BOUND : ℚ := 100000

/-- Decision variables of the MILP model: the pairwise distance variables
`u(i,j)`, the wait variables `w(i,j,k)` and the boolean indicators `x(i,j,k)`
and `b(i,j,k)` (`add_variables_to_model`). -/
inductive MVar
  | u (i j : String)
  | w (i j k : String)
  | x (i j k : String)
  | b (i j k : String)
deriving DecidableEq, Repr

/-- Keys of the `self.u` table: every ordered pair of distinct events, in the
nested-loop order of `add_variables_to_model`. -/
def uKeysL (cs : List TCon) : List (String × String) :=
  (get_events cs).flatMap (fun vi =>
    ((get_events cs).filter (fun vj => vj != vi)).map (fun vj => (vi, vj)))

/-- Keys of the `self.w` table (shared by `self.x` and `self.b`): one triple
`(vi, vj, vk)` per contingent constraint `(vi, vk)` and third event
`vj ∉ {vi, vk}`, in the loop order of `add_variables_to_model`. -/
def wKeysL (cs : List TCon) : List (String × String × String) :=
  cs.flatMap (fun c =>
    match c with
    | TCon.ctg s e _ _ _ =>
      ((get_events cs).filter (fun vj => vj != s && vj != e)).map
        (fun vj => (s, vj, e))
    | TCon.req _ _ _ _ _ => [])

/-- Linear expression over the model variables: a sum of coefficient-variable
terms plus a constant. -/
structure LinExpr where
  terms : List (ℚ × MVar)
  const : ℚ
deriving DecidableEq, Repr

/-- Value of a linear expression under an assignment of the variables. -/
def LinExpr.eval (A : MVar → ℚ) (l : LinExpr) : ℚ :=
  (l.terms.map (fun t => t.1 * A t.2)).sum + l.const

/-- One linear constraint registered with the solver by `m.addConstr`,
kept as the literal left/right sides with the constraint's name. -/
inductive MConstr
  | le (lhs rhs : LinExpr) (name : String)
  | ge (lhs rhs : LinExpr) (name : String)
deriving DecidableEq, Repr

/-- Satisfaction of one linear constraint by an assignment. -/
def holdsC (A : MVar → ℚ) : MConstr → Prop
  | MConstr.le lhs rhs _ => lhs.eval A ≤ rhs.eval A
  | MConstr.ge lhs rhs _ => lhs.eval A ≥ rhs.eval A

instance (A : MVar → ℚ) (mc : MConstr) : Decidable (holdsC A mc) := by
  cases mc <;> { unfold holdsC; infer_instance }

/-- Family (1): non-negative cycle constraints `uij + uji >= 0`, one per
unordered pair, following the `visited` bookkeeping of the source. -/
def nonnegConstrs (cs : List TCon) : List MConstr :=
  ((uKeysL cs).foldl (fun acc p =>
      if (p ∈ acc.1) || ((p.2, p.1) ∈ acc.1) then acc
      else (p :: acc.1,
            acc.2 ++ [MConstr.ge ⟨[(1, MVar.u p.1 p.2), (1, MVar.u p.2 p.1)], 0⟩
                        ⟨[], 0⟩ ("nonneg(" ++ p.1 ++ "," ++ p.2 ++ ")")]))
    ([], [])).2

/-- Families (1)-(2) per constraint: the bound constraints emitted for one
requirement or contingent constraint (dc_milp.py lines 170-182). -/
def boundConstrsOf (c : TCon) : List MConstr :=
  match c with
  | TCon.req s e lb ub _ =>
    (match ub with
     | some v => [MConstr.le ⟨[(1, MVar.u s e)], 0⟩ ⟨[], v⟩
                    ("upperbound(" ++ s ++ "," ++ e ++ ")")]
     | none => []) ++
    (match lb with
     | some v => [MConstr.le ⟨[(1, MVar.u e s)], 0⟩ ⟨[], -v⟩
                    ("lowerbound(" ++ e ++ "," ++ s ++ ")")]
     | none => [])
  | TCon.ctg s e lb ub _ =>
    [MConstr.le ⟨[(1, MVar.u s e)], 0⟩ ⟨[], ub⟩
       ("upperbound(" ++ s ++ "," ++ e ++ ")"),
     MConstr.le ⟨[(1, MVar.u e s)], 0⟩ ⟨[], -lb⟩
       ("lowerbound(" ++ e ++ "," ++ s ++ ")"),
     MConstr.ge ⟨[(1, MVar.u s e)], 0⟩ ⟨[], ub⟩
       ("u(" ++ s ++ ", " ++ e ++ ") >= U"),
     MConstr.ge ⟨[(1, MVar.u e s)], 0⟩ ⟨[], -lb⟩
       ("u(" ++ e ++ ", " ++ s ++ ") >= -L")]

/-- Family (2): bound constraints for all constraints of the network. -/
def boundConstrs (cs : List TCon) : List MConstr := cs.flatMap boundConstrsOf

/-- Family (3): shortest-path constraints `uik <= uij + ujk` over all ordered
triples of distinct events. -/
def shortestPathConstrs (cs : List TCon) : List MConstr :=
  (get_events cs).flatMap (fun vi =>
    (get_events cs).flatMap (fun vj =>
      ((get_events cs).filter (fun vk => vi != vj && vi != vk && vj != vk)).map
        (fun vk =>
          MConstr.le ⟨[(1, MVar.u vi vk)], 0⟩
            ⟨[(1, MVar.u vi vj), (1, MVar.u vj vk)], 0⟩
            ("shortestpath(" ++ vi ++ "," ++ vj ++ "," ++ vk ++ ")"))))

/-- Family (4), `b = 0` branch constraint for one `b`-triple:
`ukj + bijk * MAX_NUMERIC_BOUND >= 0` (dc_milp.py line 207). -/
def precedeB0 (vi vj vk : String) : MConstr :=
  MConstr.ge ⟨[(1, MVar.u vk vj), (MAX_NUMERIC_BOUND, MVar.b vi vj vk)], 0⟩
    ⟨[], 0⟩ ("precede-b0(" ++ vi ++ "," ++ vj ++ "," ++ vk ++ ")")

/-- Family (4), first `b = 1` branch constraint:
`uij - (1-bijk) * MAX_NUMERIC_BOUND <= -uki + ukj` (dc_milp.py line 209). -/
def precedeB1a (vi vj vk : String) : MConstr :=
  MConstr.le ⟨[(1, MVar.u vi vj), (MAX_NUMERIC_BOUND, MVar.b vi vj vk)],
               -MAX_NUMERIC_BOUND⟩
    ⟨[(-1, MVar.u vk vi), (1, MVar.u vk vj)], 0⟩
    ("precede-b1-a(" ++ vi ++ "," ++ vj ++ "," ++ vk ++ ")")

/-- Family (4), second `b = 1` branch constraint:
`-uji + (1-bijk) * MAX_NUMERIC_BOUND >= uik - ujk` (dc_milp.py line 210). -/
def precedeB1b (vi vj vk : String) : MConstr :=
  MConstr.ge ⟨[(-1, MVar.u vj vi), (-MAX_NUMERIC_BOUND, MVar.b vi vj vk)],
               MAX_NUMERIC_BOUND⟩
    ⟨[(1, MVar.u vi vk), (-1, MVar.u vj vk)], 0⟩
    ("precede-b1-b(" ++ vi ++ "," ++ vj ++ "," ++ vk ++ ")")

/-- Family (4): the three precede constraints emitted for one `b`-triple
`(vi, vj, vk)` (dc_milp.py lines 207-210). -/
def precedeConstrsOf (vi vj vk : String) : List MConstr :=
  [precedeB0 vi vj vk, precedeB1a vi vj vk, precedeB1b vi vj vk]

/-- Family (4) over all `b`-triples. -/
def precedeConstrs (cs : List TCon) : List MConstr :=
  (wKeysL cs).flatMap (fun t => precedeConstrsOf t.1 t.2.1 t.2.2)

/-- Families (5)-(6): the six wait constraints emitted for one `w`-triple
(dc_milp.py lines 226-244). -/
def waitConstrsOf (vi vj vk : String) : List MConstr :=
  [MConstr.le ⟨[(1, MVar.u vi vk), (-1, MVar.u vj vk)], 0⟩
     ⟨[(1, MVar.w vi vj vk)], 0⟩
     ("wait(" ++ vi ++ "," ++ vj ++ "," ++ vk ++ ")"),
   MConstr.le ⟨[(1, MVar.w vi vj vk)], 0⟩ ⟨[(1, MVar.u vi vj)], 0⟩
     ("wait<ub(" ++ vi ++ "," ++ vj ++ "," ++ vk ++ ")"),
   MConstr.le ⟨[(1, MVar.u vj vi), (-MAX_NUMERIC_BOUND, MVar.x vi vj vk)], 0⟩
     ⟨[(1, MVar.u vk vi)], 0⟩
     ("waitcond0(" ++ vi ++ "," ++ vj ++ "," ++ vk ++ ")"),
   MConstr.ge ⟨[(1, MVar.w vi vj vk), (MAX_NUMERIC_BOUND, MVar.x vi vj vk)], 0⟩
     ⟨[(-1, MVar.u vk vi)], 0⟩
     ("waitcond0+(" ++ vi ++ "," ++ vj ++ "," ++ vk ++ ")"),
   MConstr.ge ⟨[(-1, MVar.u vj vi), (-MAX_NUMERIC_BOUND, MVar.x vi vj vk)],
                MAX_NUMERIC_BOUND⟩
     ⟨[(1, MVar.w vi vj vk)], 0⟩
     ("waitcond1(" ++ vi ++ "," ++ vj ++ "," ++ vk ++ ")"),
   MConstr.le ⟨[(1, MVar.w vi vj vk), (MAX_NUMERIC_BOUND, MVar.x vi vj vk)],
                -MAX_NUMERIC_BOUND⟩
     ⟨[(-1, MVar.u vk vi)], 0⟩
     ("waitcond1+(" ++ vi ++ "," ++ vj ++ "," ++ vk ++ ")")]

/-- Families (5)-(6) over all `w`-triples. -/
def waitConstrs (cs : List TCon) : List MConstr :=
  (wKeysL cs).flatMap (fun t => waitConstrsOf t.1 t.2.1 t.2.2)

/-- Family (8): general wait regression `wijk - umj <= wimk` (dc_milp.py
lines 253-263). -/
def regressionConstrs (cs : List TCon) : List MConstr :=
  cs.flatMap (fun c =>
    match c with
    | TCon.ctg vi vk _ _ _ =>
      (get_events cs).flatMap (fun vj =>
        ((get_events cs).filter (fun vm =>
            vj != vi && vj != vk && vm != vi && vm != vk && vm != vj)).map
          (fun vm =>
            MConstr.le ⟨[(1, MVar.w vi vj vk), (-1, MVar.u vm vj)], 0⟩
              ⟨[(1, MVar.w vi vm vk)], 0⟩
              ("regression(" ++ vi ++ "," ++ vj ++ "," ++ vk ++ "," ++ vm ++ ")")))
    | TCon.req _ _ _ _ _ => [])

/-- Family (7): wait regression across contingent links
`wijk + ujm - xijk*M <= wimk` for every ordered pair of distinct contingent
constraints (dc_milp.py lines 271-286; the model is total, while the Python
code also asserts `vm != vi` and performs table lookups — their success is
captured separately by `family7_safe`). -/
def regressionCtgConstrs (cs : List TCon) : List MConstr :=
  cs.flatMap (fun c1 =>
    match c1 with
    | TCon.ctg vi vk _ _ _ =>
      (cs.filter (fun c2 => c2.isCtg && c2 != c1)).map (fun c2 =>
        MConstr.le ⟨[(1, MVar.w vi c2.e vk), (1, MVar.u c2.e c2.s),
                     (-MAX_NUMERIC_BOUND, MVar.x vi c2.e vk)], 0⟩
          ⟨[(1, MVar.w vi c2.s vk)], 0⟩
          ("regression-contingent(" ++ vi ++ "," ++ c2.e ++ "," ++ vk ++ ","
             ++ c2.s ++ ")"))
    | TCon.req _ _ _ _ _ => [])

/-- Embedding of `DCCheckerMILP.add_constraints_to_model`: the eight constraint families
in the order the source emits them (the `(8)` block precedes the `(7)` block
in the file). -/
def add_constraints_to_model (cs : List TCon) : List MConstr :=
  nonnegConstrs cs ++ boundConstrs cs ++ shortestPathConstrs cs ++
    precedeConstrs cs ++ waitConstrs cs ++ regressionConstrs cs ++
    regressionCtgConstrs cs

/-- Termination status reported by the external solver after `m.optimize()`
(Gurobi statuses relevant to the checker: the code only ever compares the
status against `GRB.Status.INFEASIBLE`). -/
inductive GStatus
  | optimal
  | infeasible
  | timeLimit
  | interrupted
deriving DecidableEq, Repr

/-- Outcome of the delegated solve step: either a termination status, or an
exception raised by the solver library (`gp.GurobiError` with its error code
and message, or an `AttributeError`).  The outcome is a parameter of the
embedding because the solver is an external collaborator. -/
inductive SolveOutcome
  | status (st : GStatus)
  | gurobiError (errno : Int) (msg : String)
  | attributeError
deriving DecidableEq, Repr

/-- Observable result of `solve_dc`: the returned value (Python returns
`True`, `False`, or falls off the exception handlers returning `None`),
whether `m.computeIIS()` ran, and the files written by `m.write`. -/
structure SolveResult where
  verdict : Option Bool
  computedIIS : Bool
  filesWritten : List String
deriving DecidableEq, Repr

/-- Embedding of `DCCheckerMILP.solve_dc`: preprocess the network, build the model
(variables and constraints), optimize, then interpret the solver outcome
(dc_milp.py lines 74-115).  Only a status equal to `INFEASIBLE` triggers the
IIS computation and the `False` verdict; every other status returns `True`;
a caught exception prints a message and returns `None`. -/
def solve_dc (tn : List TCon) (outcome : SolveOutcome) : SolveResult :=
  let tn' := preprocess_network tn
  let _vars := (uKeysL tn', wKeysL tn')
  let _constrs := add_constraints_to_model tn'
  match outcome with
  | SolveOutcome.status GStatus.infeasible =>
    { verdict := some false, computedIIS := true, filesWritten := ["infeasible.ilp"] }
  | SolveOutcome.status _ =>
    { verdict := some true, computedIIS := false, filesWritten := [] }
  | SolveOutcome.gurobiError _ _ =>
    { verdict := none, computedIIS := false, filesWritten := [] }
  | SolveOutcome.attributeError =>
    { verdict := none, computedIIS := false, filesWritten := [] }

/-- Embedding of `DCCheckerMILP.is_controllable`: returns `(res, None)` where `res` is the
value returned by `solve_dc`; the second component is always `None` (the IIS
is only ever written to the file `infeasible.ilp`). -/
def is_controllable (tn : List TCon) (outcome : SolveOutcome) :
    Option Bool × Option String :=
  ((solve_dc tn outcome).verdict, none)

/-- Domination of one optional explicit bound by `MAX_NUMERIC_BOUND`. -/
def optBoundDominated : Option ℚ → Prop
  | some v => |v| < MAX_NUMERIC_BOUND
  | none => True

instance (v : Option ℚ) : Decidable (optBoundDominated v) := by
  cases v <;> { unfold optBoundDominated; infer_instance }

/-- Domination of one constraint's explicit bounds by `MAX_NUMERIC_BOUND`. -/
def cBoundsDominated : TCon → Prop
  | TCon.req _ _ lb ub _ => optBoundDominated lb ∧ optBoundDominated ub
  | TCon.ctg _ _ lb ub _ => |lb| < MAX_NUMERIC_BOUND ∧ |ub| < MAX_NUMERIC_BOUND

instance (c : TCon) : Decidable (cBoundsDominated c) := by
  cases c <;> { unfold cBoundsDominated; infer_instance }

/-- Spec-side predicate, following the spec's words (section 7): the
configured `MAX_NUMERIC_BOUND` strictly dominates every explicit finite bound
present in the input network.  The code has no counterpart of this check. -/
def specBoundsDominated (cs : List TCon) : Prop :=
  ∀ c ∈ cs, cBoundsDominated c

instance (cs : List TCon) : Decidable (specBoundsDominated cs) := by
  unfold specBoundsDominated
  infer_instance

/-- Structural precondition (i), in the strong form the encoding needs: no
contingent constraint's source event is the sink of any contingent
constraint (its own sink included). -/
def noCtgSrcIsCtgSink (cs : List TCon) : Prop :=
  ∀ c ∈ ctgs cs, ∀ c' ∈ ctgs cs, c.s ≠ c'.e

instance (cs : List TCon) : Decidable (noCtgSrcIsCtgSink cs) := by
  unfold noCtgSrcIsCtgSink
  exact List.decidableBAll _ _

/-- Structural precondition (i) exactly as the claims word it: no contingent
constraint's source event is the sink of *another* contingent constraint
(two distinct positions in the constraint list). -/
def noCtgSrcIsOtherCtgSink (cs : List TCon) : Prop :=
  (ctgs cs).Pairwise (fun c c' => c.s ≠ c'.e ∧ c'.s ≠ c.e)

instance (cs : List TCon) : Decidable (noCtgSrcIsOtherCtgSink cs) := by
  unfold noCtgSrcIsOtherCtgSink
  infer_instance

/-- Structural precondition (ii): no two contingent constraints share the
same source event. -/
def noSharedCtgSrc (cs : List TCon) : Prop :=
  (ctgs cs).Pairwise (fun c c' => c.s ≠ c'.s)

instance (cs : List TCon) : Decidable (noSharedCtgSrc cs) := by
  unfold noSharedCtgSrc
  infer_instance

/-- Ordering of a requirement constraint's bounds when both are present. -/
def reqBoundsOrdered : Option ℚ → Option ℚ → Prop
  | some l, some u => l ≤ u
  | _, _ => True

instance (lb ub : Option ℚ) : Decidable (reqBoundsOrdered lb ub) := by
  cases lb <;> cases ub <;> { unfold reqBoundsOrdered; infer_instance }

/-- Structural validity of one constraint, from the spec's data model
(section 3): requirement bounds ordered when both present; contingent bounds
`0 ≤ lb ≤ ub` with distinct endpoints. -/
def cStructValid : TCon → Prop
  | TCon.req _ _ lb ub _ => reqBoundsOrdered lb ub
  | TCon.ctg s e lb ub _ => 0 ≤ lb ∧ lb ≤ ub ∧ s ≠ e

instance (c : TCon) : Decidable (cStructValid c) := by
  cases c <;> { unfold cStructValid; infer_instance }

/-- Structural validity of an input STNU: every constraint is structurally
valid and every event is the sink of at most one contingent constraint
(standard STNU well-formedness). -/
def structurallyValid (cs : List TCon) : Prop :=
  (∀ c ∈ cs, cStructValid c) ∧ (ctgSinks cs).Nodup

instance (cs : List TCon) : Decidable (structurallyValid cs) := by
  unfold structurallyValid
  infer_instance

/-- Freshness of the synthesized copy names, part 1: no copy name
`copyName s n` (with `s` a contingent source and a counter value the loop can
actually use, `1 ≤ n ≤ cs.length`) collides with an event of the input
network. -/
def freshCopyNames (cs : List TCon) : Prop :=
  ∀ t ∈ ctgSrcs cs, ∀ n, n < cs.length + 1 → 1 ≤ n → copyName t n ∉ allEvents cs

instance (cs : List TCon) : Decidable (freshCopyNames cs) := by
  unfold freshCopyNames
  exact List.decidableBAll _ _

/-- Freshness of the synthesized copy names, part 2: copy names built from
distinct (source, counter) pairs are pairwise distinct. -/
def injCopyNames (cs : List TCon) : Prop :=
  ∀ t ∈ ctgSrcs cs, ∀ t' ∈ ctgSrcs cs, ∀ n, n < cs.length + 1 →
    ∀ n', n' < cs.length + 1 → 1 ≤ n → 1 ≤ n' →
      copyName t n = copyName t' n' → t = t' ∧ n = n'

instance (cs : List TCon) : Decidable (injCopyNames cs) := by
  unfold injCopyNames
  exact List.decidableBAll _ _

/-- Safety of the family-(7) loop (dc_milp.py lines 271-286) on a network:
for every ordered pair of distinct contingent constraints `c1 = (vi, vk)` and
`c2 = (vm, vj)`, the assertion `vm != vi` holds and the table lookups
`w[(vi, vj, vk)]`, `x[(vi, vj, vk)]`, `w[(vi, vm, vk)]`, `u[(vj, vm)]` all
succeed. -/
def family7_safe (cs : List TCon) : Prop :=
  ∀ c1 ∈ ctgs cs, ∀ c2 ∈ ctgs cs, c1 ≠ c2 →
    c2.s ≠ c1.s ∧
    (c1.s, c2.e, c1.e) ∈ wKeysL cs ∧
    (c1.s, c2.s, c1.e) ∈ wKeysL cs ∧
    (c2.e, c2.s) ∈ uKeysL cs

instance (cs : List TCon) : Decidable (family7_safe cs) := by
  unfold family7_safe
  exact List.decidableBAll _ _

/-- Concrete network whose explicit upper bound `200000` exceeds
`MAX_NUMERIC_BOUND`. -/
def bigBoundNet : List TCon := [TCon.req "A" "B" (some 0) (some 200000) "r"]

/-- C1: when the external solver reports the encoding feasible
(`GRB.Status` other than `INFEASIBLE`, here `optimal`), `is_controllable`
returns `true` as the controllability verdict; when the solver reports the
encoding infeasible, the checker requests the IIS (`m.computeIIS()`),
persists it to `infeasible.ilp`, and returns `false` as the verdict. -/
theorem isControllable_feasibility_verdicts (tn : List TCon) :
    (is_controllable tn (SolveOutcome.status GStatus.optimal)).1 = some true ∧
    (solve_dc tn (SolveOutcome.status GStatus.infeasible)).computedIIS = true ∧
    (solve_dc tn (SolveOutcome.status GStatus.infeasible)).filesWritten
      = ["infeasible.ilp"] ∧
    (is_controllable tn (SolveOutcome.status GStatus.infeasible)).1 = some false :=
  ⟨rfl, rfl, rfl, rfl⟩

/-- C2 counterexample: a timed-out solver status is coerced to the DC verdict:
`is_controllable` returns `true` (not an outcome distinct from both
verdicts) when the solve step ends with `TIME_LIMIT`. -/
theorem timedOut_coerced_to_DC :
    (is_controllable [] (SolveOutcome.status GStatus.timeLimit)).1 = some true ∧
    (is_controllable [] (SolveOutcome.status GStatus.interrupted)).1 = some true :=
  ⟨rfl, rfl⟩

/-- C2 (amended): whenever the solve step ends with a timed-out or otherwise
non-infeasible solver status, `solve_dc` coerces it to the DC verdict: the
status comparison `m.status == GRB.Status.INFEASIBLE` is the only test, so
every other status returns `true`. -/
theorem solve_dc_noninfeasible_returns_true (tn : List TCon) (s : GStatus)
    (h : s ≠ GStatus.infeasible) :
    (solve_dc tn (SolveOutcome.status s)).verdict = some true := by
  cases s with
  | optimal => rfl
  | infeasible => exact absurd rfl h
  | timeLimit => rfl
  | interrupted => rfl

/-- C2 witness: the amended theorem applies to the timed-out status. -/
theorem solve_dc_noninfeasible_returns_true_witness :
    GStatus.timeLimit ≠ GStatus.infeasible ∧
    (solve_dc [] (SolveOutcome.status GStatus.timeLimit)).verdict = some true :=
  ⟨by decide, solve_dc_noninfeasible_returns_true [] GStatus.timeLimit (by decide)⟩

/-- C3: when the external solver raises an internal error (`gp.GurobiError`,
e.g. licensing or numerical failure), the caller of `is_controllable`
receives `None` as the verdict — an outcome distinct from both the DC
verdict (`true`) and the not-DC verdict (`false`); the not-DC verdict is
never reported for such an invocation.  The caught `AttributeError` path
behaves the same way. -/
theorem isControllable_error_not_notDC (tn : List TCon) (errno : Int)
    (msg : String) :
    (is_controllable tn (SolveOutcome.gurobiError errno msg)).1 = none ∧
    (is_controllable tn (SolveOutcome.gurobiError errno msg)).1 ≠ some false ∧
    (is_controllable tn (SolveOutcome.gurobiError errno msg)).1 ≠ some true ∧
    (is_controllable tn SolveOutcome.attributeError).1 = none := by
  refine ⟨rfl, ?_, ?_, rfl⟩ <;> { intro h; exact Option.noConfusion h }

/-- C7 counterexample: the checker performs no validation of
`MAX_NUMERIC_BOUND` against the network's explicit bounds: on a network with
an explicit bound `200000 > MAX_NUMERIC_BOUND` the encode-and-solve pipeline
proceeds and returns an ordinary verdict; no `BoundOverflow`-like failure
exists anywhere in its observable result. -/
theorem no_boundOverflow_validation :
    ¬ specBoundsDominated bigBoundNet ∧
    (solve_dc bigBoundNet (SolveOutcome.status GStatus.optimal)).verdict
      = some true ∧
    is_controllable bigBoundNet (SolveOutcome.status GStatus.optimal)
      = (some true, none) :=
  ⟨by decide, rfl, rfl⟩

/-- C7 (amended): the checker does not validate `MAX_NUMERIC_BOUND` against
the input network's explicit bounds and raises no `BoundOverflow`: even when
the bound fails to dominate some explicit bound, `solve_dc` behaves exactly
as on any other network — its observable result is determined by the solver
outcome alone. -/
theorem solve_dc_ignores_bound_domination (tn : List TCon) (o : SolveOutcome)
    (h : ¬ specBoundsDominated tn) :
    solve_dc tn o = solve_dc [] o := rfl

/-- C7 witness: the amended theorem applies to the network with a bound of
`200000`. -/
theorem solve_dc_ignores_bound_domination_witness :
    ¬ specBoundsDominated bigBoundNet ∧
    solve_dc bigBoundNet (SolveOutcome.status GStatus.optimal)
      = solve_dc [] (SolveOutcome.status GStatus.optimal) :=
  ⟨by decide,
   solve_dc_ignores_bound_domination bigBoundNet
     (SolveOutcome.status GStatus.optimal) (by decide)⟩

/-- C10: for every input network and every solver outcome, `is_controllable`
returns `None` as the second component of its result pair; the IIS is only
ever written to the file `infeasible.ilp` (and only on the infeasible
status), never returned programmatically. -/
theorem isControllable_never_returns_conflict (tn : List TCon)
    (o : SolveOutcome) :
    (is_controllable tn o).2 = none ∧
    (solve_dc tn o).filesWritten =
      (if o = SolveOutcome.status GStatus.infeasible
       then ["infeasible.ilp"] else []) := by
  refine ⟨rfl, ?_⟩
  cases o with
  | status s => cases s <;> simp [solve_dc]
  | gurobiError errno msg => simp [solve_dc]
  | attributeError => simp [solve_dc]

/-- Assignment witnessing that the relaxed `b = 1` precede constraints are
not vacuous on the full `±MAX_NUMERIC_BOUND` domains. -/
def precedeCexAsg : MVar → ℚ := fun v =>
  if v = MVar.u "A" "B" then MAX_NUMERIC_BOUND
  else if v = MVar.u "C" "A" then MAX_NUMERIC_BOUND
  else if v = MVar.u "C" "B" then -MAX_NUMERIC_BOUND
  else 0

/-- C4 counterexample: with `b("A","B","C") = 0` there is an assignment of
the `u`-variables inside their `±MAX_NUMERIC_BOUND` domains that violates the
relaxed `b = 1` constraint `uij - (1-b)*M <= -uki + ukj`: the single big-M
term cannot absorb three variables at their domain boundary. -/
theorem precede_inactive_branch_not_vacuous :
    (∀ v, -MAX_NUMERIC_BOUND ≤ precedeCexAsg v ∧
       precedeCexAsg v ≤ MAX_NUMERIC_BOUND) ∧
    precedeCexAsg (MVar.b "A" "B" "C") = 0 ∧
    ¬ holdsC precedeCexAsg (precedeB1a "A" "B" "C") := by
  refine ⟨?_, by decide,
    by norm_num +decide [holdsC, precedeB1a, LinExpr.eval, precedeCexAsg,
      MAX_NUMERIC_BOUND]⟩
  intro v
  unfold precedeCexAsg
  split_ifs <;> norm_num [MAX_NUMERIC_BOUND]

/-- C4 (amended): in the precede-constraint family the big-M gating is only
partially vacuous.  Whenever `b(i,j,k) = 1`, the `b = 0` constraint
`u(k,j) + MAX_NUMERIC_BOUND >= 0` is satisfied by every assignment of the
`u`-variables within their `±MAX_NUMERIC_BOUND` domains.  Whenever
`b(i,j,k) = 0`, the two relaxed `b = 1` constraints are satisfied by every
assignment whose `u`-variables lie within `±(MAX_NUMERIC_BOUND/3)` — but not,
as the counterexample shows, by every assignment within the full domains. -/
theorem precede_bigM_gating (A : MVar → ℚ) (vi vj vk : String) :
    (A (MVar.b vi vj vk) = 1 →
      (∀ p q, -MAX_NUMERIC_BOUND ≤ A (MVar.u p q) ∧
         A (MVar.u p q) ≤ MAX_NUMERIC_BOUND) →
      holdsC A (precedeB0 vi vj vk)) ∧
    (A (MVar.b vi vj vk) = 0 →
      (∀ p q, |A (MVar.u p q)| ≤ MAX_NUMERIC_BOUND / 3) →
      holdsC A (precedeB1a vi vj vk) ∧ holdsC A (precedeB1b vi vj vk)) := by
  constructor
  · intro hb hdom
    have h1 := (hdom vk vj).1
    simp only [holdsC, precedeB0, LinExpr.eval, List.map_cons, List.map_nil,
      List.sum_cons, List.sum_nil, hb, MAX_NUMERIC_BOUND] at *
    linarith
  · intro hb hdom
    have h1 := abs_le.mp (hdom vi vj)
    have h2 := abs_le.mp (hdom vk vi)
    have h3 := abs_le.mp (hdom vk vj)
    have h4 := abs_le.mp (hdom vj vi)
    have h5 := abs_le.mp (hdom vi vk)
    have h6 := abs_le.mp (hdom vj vk)
    constructor <;>
      · simp only [holdsC, precedeB1a, precedeB1b, LinExpr.eval, List.map_cons,
          List.map_nil, List.sum_cons, List.sum_nil, hb, MAX_NUMERIC_BOUND] at *
        linarith

/-- Assignment used by the C4 witness for the `b = 1` branch. -/
def precedeWitAsgOne : MVar → ℚ := fun v =>
  if v = MVar.b "A" "B" "C" then 1 else 0

/-- Zero assignment used by the C4 witness for the `b = 0` branch. -/
def precedeWitAsgZero : MVar → ℚ := fun _ => 0

/-- C4 witness: both branches of the amended theorem apply at concrete
assignments. -/
theorem precede_bigM_gating_witness :
    holdsC precedeWitAsgOne (precedeB0 "A" "B" "C") ∧
    (holdsC precedeWitAsgZero (precedeB1a "A" "B" "C") ∧
     holdsC precedeWitAsgZero (precedeB1b "A" "B" "C")) := by
  constructor
  · refine (precede_bigM_gating precedeWitAsgOne "A" "B" "C").1 (by decide) ?_
    intro p q
    constructor <;> { unfold precedeWitAsgOne; split_ifs <;> norm_num [MAX_NUMERIC_BOUND] }
  · refine (precede_bigM_gating precedeWitAsgZero "A" "B" "C").2 (by decide) ?_
    intro p q
    unfold precedeWitAsgZero
    norm_num [MAX_NUMERIC_BOUND]

/-- Bound constraints of a member constraint are part of the emitted model. -/
theorem boundConstrsOf_subset_model {cs : List TCon} {c : TCon} (hc : c ∈ cs)
    {mc : MConstr} (h : mc ∈ boundConstrsOf c) :
    mc ∈ add_constraints_to_model cs := by
  unfold add_constraints_to_model
  have hb : mc ∈ boundConstrs cs := List.mem_flatMap.mpr ⟨c, hc, h⟩
  simp only [List.mem_append]
  tauto

/-- C8: for every contingent constraint `(s, e, lb, ub)` of the encoded
network, every assignment satisfying the full emitted constraint set
satisfies `u(s,e) = ub` and `u(e,s) = -lb` exactly: the `<=` bound
constraints are paired with the `>=` rigidity constraints of family (2). -/
theorem contingent_rigidity (cs : List TCon) (A : MVar → ℚ) (s e : String)
    (lb ub : ℚ) (name : String) (hc : TCon.ctg s e lb ub name ∈ cs)
    (hA : ∀ mc ∈ add_constraints_to_model cs, holdsC A mc) :
    A (MVar.u s e) = ub ∧ A (MVar.u e s) = -lb := by
  have m1 : MConstr.le ⟨[(1, MVar.u s e)], 0⟩ ⟨[], ub⟩
      ("upperbound(" ++ s ++ "," ++ e ++ ")")
      ∈ boundConstrsOf (TCon.ctg s e lb ub name) := by
    simp [boundConstrsOf]
  have m2 : MConstr.le ⟨[(1, MVar.u e s)], 0⟩ ⟨[], -lb⟩
      ("lowerbound(" ++ e ++ "," ++ s ++ ")")
      ∈ boundConstrsOf (TCon.ctg s e lb ub name) := by
    simp [boundConstrsOf]
  have m3 : MConstr.ge ⟨[(1, MVar.u s e)], 0⟩ ⟨[], ub⟩
      ("u(" ++ s ++ ", " ++ e ++ ") >= U")
      ∈ boundConstrsOf (TCon.ctg s e lb ub name) := by
    simp [boundConstrsOf]
  have m4 : MConstr.ge ⟨[(1, MVar.u e s)], 0⟩ ⟨[], -lb⟩
      ("u(" ++ e ++ ", " ++ s ++ ") >= -L")
      ∈ boundConstrsOf (TCon.ctg s e lb ub name) := by
    simp [boundConstrsOf]
  have g1 := hA _ (boundConstrsOf_subset_model hc m1)
  have g2 := hA _ (boundConstrsOf_subset_model hc m2)
  have g3 := hA _ (boundConstrsOf_subset_model hc m3)
  have g4 := hA _ (boundConstrsOf_subset_model hc m4)
  simp only [holdsC, LinExpr.eval, List.map_cons, List.map_nil, List.sum_cons,
    List.sum_nil, one_mul, add_zero, zero_add] at g1 g2 g3 g4
  constructor <;> linarith

/-- Single-contingent witness network for C8. -/
def rigidNet : List TCon := [TCon.ctg "A" "C" 1 2 "c"]

/-- Feasible assignment for the witness network's emitted constraint set. -/
def rigidAsg : MVar → ℚ := fun v =>
  if v = MVar.u "A" "C" then 2 else if v = MVar.u "C" "A" then -1 else 0

/-- C8 witness: a concrete feasible assignment of the witness network's full
constraint set, at which the rigidity theorem applies. -/
theorem contingent_rigidity_witness :
    TCon.ctg "A" "C" 1 2 "c" ∈ rigidNet ∧
    rigidAsg (MVar.u "A" "C") = 2 ∧ rigidAsg (MVar.u "C" "A") = -(1 : ℚ) :=
  ⟨by decide,
   contingent_rigidity rigidNet rigidAsg "A" "C" 1 2 "c" (by decide) (by
     intro mc hmc
     have e : add_constraints_to_model rigidNet =
         [MConstr.ge ⟨[(1, MVar.u "A" "C"), (1, MVar.u "C" "A")], 0⟩
            ⟨[], 0⟩ "nonneg(A,C)",
          MConstr.le ⟨[(1, MVar.u "A" "C")], 0⟩ ⟨[], 2⟩ "upperbound(A,C)",
          MConstr.le ⟨[(1, MVar.u "C" "A")], 0⟩ ⟨[], -1⟩ "lowerbound(C,A)",
          MConstr.ge ⟨[(1, MVar.u "A" "C")], 0⟩ ⟨[], 2⟩ "u(A, C) >= U",
          MConstr.ge ⟨[(1, MVar.u "C" "A")], 0⟩ ⟨[], -1⟩ "u(C, A) >= -L"] := by
       decide
     rw [e] at hmc
     simp only [List.mem_cons, List.not_mem_nil, or_false] at hmc
     rcases hmc with h | h | h | h | h <;> subst h <;>
       norm_num +decide [holdsC, LinExpr.eval, rigidAsg])⟩

theorem ctgs_append (l₁ l₂ : List TCon) : ctgs (l₁ ++ l₂) = ctgs l₁ ++ ctgs l₂ := by
  simp [ctgs, List.filter_append]

theorem ctgs_cons_req (s e : String) (lb ub : Option ℚ) (nm : String)
    (l : List TCon) : ctgs (TCon.req s e lb ub nm :: l) = ctgs l := by
  simp [ctgs, List.filter_cons, TCon.isCtg]

theorem ctgs_cons_ctg (s e : String) (lb ub : ℚ) (nm : String)
    (l : List TCon) :
    ctgs (TCon.ctg s e lb ub nm :: l) = TCon.ctg s e lb ub nm :: ctgs l := by
  simp [ctgs, List.filter_cons, TCon.isCtg]

theorem ctgSinks_append (l₁ l₂ : List TCon) :
    ctgSinks (l₁ ++ l₂) = ctgSinks l₁ ++ ctgSinks l₂ := by
  simp [ctgSinks, ctgs_append]

theorem mem_ctgs {c : TCon} {cs : List TCon} :
    c ∈ ctgs cs ↔ c ∈ cs ∧ c.isCtg = true := List.mem_filter

theorem mem_ctgSrcs_of {c : TCon} {cs : List TCon} (hc : c ∈ cs)
    (hictg : c.isCtg = true) : TCon.s c ∈ ctgSrcs cs :=
  List.mem_map_of_mem _ (mem_ctgs.mpr ⟨hc, hictg⟩)

theorem mem_ctgSinks_of {c : TCon} {cs : List TCon} (hc : c ∈ cs)
    (hictg : c.isCtg = true) : TCon.e c ∈ ctgSinks cs :=
  List.mem_map_of_mem _ (mem_ctgs.mpr ⟨hc, hictg⟩)

theorem mem_allEvents_src {c : TCon} {cs : List TCon} (hc : c ∈ cs) :
    TCon.s c ∈ allEvents cs :=
  List.mem_flatMap.mpr ⟨c, hc, by simp⟩

theorem mem_allEvents_snk {c : TCon} {cs : List TCon} (hc : c ∈ cs) :
    TCon.e c ∈ allEvents cs :=
  List.mem_flatMap.mpr ⟨c, hc, by simp⟩

theorem ctgSinks_subset_allEvents {t : String} {cs : List TCon}
    (h : t ∈ ctgSinks cs) : t ∈ allEvents cs := by
  rcases List.mem_map.mp h with ⟨c, hc, rfl⟩
  exact mem_allEvents_snk (mem_ctgs.mp hc).1

theorem ctgSrcs_subset_allEvents {t : String} {cs : List TCon}
    (h : t ∈ ctgSrcs cs) : t ∈ allEvents cs := by
  rcases List.mem_map.mp h with ⟨c, hc, rfl⟩
  exact mem_allEvents_src (mem_ctgs.mp hc).1

theorem dset_self (m : Dict) (k : String) (v : Nat) : dset m k v k = some v := by
  simp [dset]

theorem dset_ne (m : Dict) (k : String) (v : Nat) {k' : String} (h : k' ≠ k) :
    dset m k v k' = m k' := by
  simp [dset, h]

theorem initUMap_foldl_eq (l : List TCon) : ∀ (m : Dict) (t : String),
    (l.foldl (fun m c =>
      match c with
      | TCon.ctg _ e _ _ _ => dset m e 1
      | TCon.req _ _ _ _ _ => m) m) t
    = if t ∈ ctgSinks l then some 1 else m t := by
  induction l with
  | nil => intro m t; simp [ctgSinks, ctgs]
  | cons c l ih =>
    intro m t
    cases c with
    | req s e lb ub nm =>
      rw [List.foldl_cons]
      have h1 : ctgSinks (TCon.req s e lb ub nm :: l) = ctgSinks l := by
        simp [ctgSinks, ctgs_cons_req]
      rw [h1]
      exact ih m t
    | ctg s e lb ub nm =>
      rw [List.foldl_cons]
      have h1 : ctgSinks (TCon.ctg s e lb ub nm :: l) = TCon.e (TCon.ctg s e lb ub nm) :: ctgSinks l := by
        simp [ctgSinks, ctgs_cons_ctg]
      rw [h1, ih (dset m e 1) t]
      by_cases h : t ∈ ctgSinks l
      · simp [h, TCon.e]
      · by_cases h2 : t = e
        · subst h2; simp [h, dset, TCon.e]
        · simp [h, h2, TCon.e, dset_ne m e 1 h2]

theorem initUMap_eq (cs : List TCon) (t : String) :
    initUMap cs t = if t ∈ ctgSinks cs then some 1 else none :=
  initUMap_foldl_eq cs dempty t

/-- Current copy counter of a source event, whichever dictionary holds it
(the two dictionaries have disjoint keys throughout the loop). -/
def ctr (st : PPState) (t : String) : Option Nat :=
  match st.uMap t with
  | some n => some n
  | none => st.sMap t

/-- Classification of the source of a contingent constraint already added to
the output: either it passed through (an executable source now registered in
`sMap`), or it is a synthesized copy name whose counter is strictly below the
current counter of its base source. -/
def SrcDesc (cs : List TCon) (st : PPState) (c : TCon) : Prop :=
  (TCon.s c ∈ ctgSrcs cs ∧ TCon.s c ∉ ctgSinks cs ∧
     (st.sMap (TCon.s c)).isSome = true)
  ∨ (∃ t n m, t ∈ ctgSrcs cs ∧ 1 ≤ n ∧ n ≤ cs.length ∧
      TCon.s c = copyName t n ∧ ctr st t = some m ∧ n < m)

/-- Loop invariant of the `preprocess_network` fold; `r` is the number of
input constraints still to be processed. -/
structure PPInv (cs : List TCon) (r : Nat) (st : PPState) : Prop where
  huK : ∀ t, (st.uMap t).isSome = true ↔ t ∈ ctgSinks cs
  huB : ∀ t n, st.uMap t = some n → 1 ≤ n ∧ n + r ≤ cs.length + 1
  hsB : ∀ t n, st.sMap t = some n → 1 ≤ n ∧ n + r ≤ cs.length + 1
  hsNS : ∀ t, (st.sMap t).isSome = true → t ∉ ctgSinks cs
  hsnk : ∀ c ∈ ctgs st.out, TCon.e c ∈ ctgSinks cs
  hsrc : ∀ c ∈ ctgs st.out, SrcDesc cs st c
  hdis : (ctgs st.out).Pairwise (fun a b => TCon.s a ≠ TCon.s b)

/-- One step of the `preprocess_network` loop preserves the invariant. -/
theorem ppStep_inv {cs : List TCon} {r : Nat} {st : PPState} {c : TCon}
    (hc : c ∈ cs) (hr : r + 1 ≤ cs.length)
    (H1 : freshCopyNames cs) (H2 : injCopyNames cs)
    (inv : PPInv cs (r + 1) st) : PPInv cs r (ppStep st c) := by
  cases c with
  | req s0 e0 lb ub nm =>
    have hout : ctgs (st.out ++ [TCon.req s0 e0 lb ub nm]) = ctgs st.out := by
      simp [ctgs, List.filter_append, TCon.isCtg]
    simp only [ppStep]
    refine ⟨inv.huK, ?_, ?_, inv.hsNS, ?_, ?_, ?_⟩ <;> dsimp only
    · intro t n h
      have := inv.huB t n h
      exact ⟨this.1, by omega⟩
    · intro t n h
      have := inv.hsB t n h
      exact ⟨this.1, by omega⟩
    · rw [hout]; exact inv.hsnk
    · rw [hout]; exact inv.hsrc
    · rw [hout]; exact inv.hdis
  | ctg s0 e0 lb ub nm =>
    have hs0src : s0 ∈ ctgSrcs cs := mem_ctgSrcs_of hc rfl
    have he0snk : e0 ∈ ctgSinks cs := mem_ctgSinks_of hc rfl
    have hs0ev : s0 ∈ allEvents cs := mem_allEvents_src hc
    rcases hu : st.uMap s0 with _ | n
    · rcases hs : st.sMap s0 with _ | n
      · -- both dictionaries miss s0: the constraint passes through
        have hs0Nsnk : s0 ∉ ctgSinks cs := by
          intro hcon
          have := (inv.huK s0).mpr hcon
          rw [hu] at this
          exact Bool.noConfusion this
        have hout : ctgs (st.out ++ [TCon.ctg s0 e0 lb ub nm]) =
            ctgs st.out ++ [TCon.ctg s0 e0 lb ub nm] := by
          simp [ctgs, List.filter_append, TCon.isCtg]
        simp only [ppStep, hu, hs]
        refine ⟨inv.huK, ?_, ?_, ?_, ?_, ?_, ?_⟩ <;> dsimp only
        · intro t n h
          have := inv.huB t n h
          exact ⟨this.1, by omega⟩
        · intro t n h
          by_cases ht : t = s0
          · rw [ht, dset_self] at h
            cases h
            exact ⟨le_refl 1, by omega⟩
          · rw [dset_ne _ _ _ ht] at h
            have := inv.hsB t n h
            exact ⟨this.1, by omega⟩
        · intro t h
          by_cases ht : t = s0
          · rw [ht]; exact hs0Nsnk
          · rw [dset_ne _ _ _ ht] at h
            exact inv.hsNS t h
        · rw [hout]
          intro c' hc'
          rcases List.mem_append.mp hc' with h | h
          · exact inv.hsnk c' h
          · rw [List.mem_singleton] at h
            rw [h]
            exact he0snk
        · rw [hout]
          intro c' hc'
          rcases List.mem_append.mp hc' with h | h
          · rcases inv.hsrc c' h with ⟨h1, h2, h3⟩ | ⟨t, nc, m, ht, h1n, hnKt, heq, hctr, hlt⟩
            · left
              refine ⟨h1, h2, ?_⟩
              by_cases hts : TCon.s c' = s0
              · show (dset st.sMap s0 1 (TCon.s c')).isSome = true
                rw [hts, dset_self]; rfl
              · show (dset st.sMap s0 1 (TCon.s c')).isSome = true
                rw [dset_ne _ _ _ hts]
                exact h3
            · right
              by_cases hts : t = s0
              · exfalso
                rw [hts] at hctr
                simp [ctr, hu, hs] at hctr
              · refine ⟨t, nc, m, ht, h1n, hnKt, heq, ?_, hlt⟩
                show ctr ⟨st.uMap, dset st.sMap s0 1, st.out ++ [TCon.ctg s0 e0 lb ub nm]⟩ t = some m
                simp only [ctr, dset_ne _ _ _ hts]
                exact hctr
          · rw [List.mem_singleton] at h
            rw [h]
            left
            refine ⟨hs0src, hs0Nsnk, ?_⟩
            show (dset st.sMap s0 1 s0).isSome = true
            rw [dset_self]
            rfl
        · rw [hout, List.pairwise_append]
          refine ⟨inv.hdis, List.pairwise_singleton _ _, ?_⟩
          intro a ha b hb
          rw [List.mem_singleton] at hb
          rw [hb]
          show TCon.s a ≠ s0
          rcases inv.hsrc a ha with ⟨_, _, h3⟩ | ⟨t, nc, m, ht, h1n, hnKt, heq, _, _⟩
          · intro hEq
            rw [hEq, hs] at h3
            exact Bool.noConfusion h3
          · intro hEq
            rw [heq] at hEq
            exact H1 t ht nc (by omega) h1n (hEq ▸ hs0ev)
      · -- source already used by another contingent link: copy via sMap
        have hs0Nsnk : s0 ∉ ctgSinks cs := by
          intro hcon
          have := (inv.huK s0).mpr hcon
          rw [hu] at this
          exact Bool.noConfusion this
        have hn1K := inv.hsB s0 n hs
        have hout : ctgs (st.out ++
            [TCon.req s0 (copyName s0 n) (some 0) (some 0) (equalityName s0 (copyName s0 n)),
             TCon.ctg (copyName s0 n) e0 lb ub nm]) =
            ctgs st.out ++ [TCon.ctg (copyName s0 n) e0 lb ub nm] := by
          simp [ctgs, List.filter_append, TCon.isCtg]
        simp only [ppStep, hu, hs]
        refine ⟨inv.huK, ?_, ?_, ?_, ?_, ?_, ?_⟩ <;> dsimp only
        · intro t m h
          have := inv.huB t m h
          exact ⟨this.1, by omega⟩
        · intro t m h
          by_cases ht : t = s0
          · rw [ht, dset_self] at h
            cases h
            exact ⟨by omega, by omega⟩
          · rw [dset_ne _ _ _ ht] at h
            have := inv.hsB t m h
            exact ⟨this.1, by omega⟩
        · intro t h
          by_cases ht : t = s0
          · rw [ht]; exact hs0Nsnk
          · rw [dset_ne _ _ _ ht] at h
            exact inv.hsNS t h
        · rw [hout]
          intro c' hc'
          rcases List.mem_append.mp hc' with h | h
          · exact inv.hsnk c' h
          · rw [List.mem_singleton] at h
            rw [h]
            exact he0snk
        · rw [hout]
          intro c' hc'
          rcases List.mem_append.mp hc' with h | h
          · rcases inv.hsrc c' h with ⟨h1, h2, h3⟩ | ⟨t, nc, m, ht, h1n, hnKt, heq, hctr, hlt⟩
            · left
              refine ⟨h1, h2, ?_⟩
              by_cases hts : TCon.s c' = s0
              · show (dset st.sMap s0 (n + 1) (TCon.s c')).isSome = true
                rw [hts, dset_self]; rfl
              · show (dset st.sMap s0 (n + 1) (TCon.s c')).isSome = true
                rw [dset_ne _ _ _ hts]
                exact h3
            · right
              by_cases hts : t = s0
              · have hcc : ctr st t = some n := by
                  rw [hts]
                  simp [ctr, hu, hs]
                rw [hcc] at hctr
                injection hctr with hmn
                refine ⟨t, nc, n + 1, ht, h1n, hnKt, heq, ?_, by omega⟩
                show ctr ⟨st.uMap, dset st.sMap s0 (n + 1), _⟩ t = some (n + 1)
                rw [hts]
                simp [ctr, hu, dset_self]
              · refine ⟨t, nc, m, ht, h1n, hnKt, heq, ?_, hlt⟩
                show ctr ⟨st.uMap, dset st.sMap s0 (n + 1), _⟩ t = some m
                simp only [ctr, dset_ne _ _ _ hts]
                exact hctr
          · rw [List.mem_singleton] at h
            rw [h]
            right
            refine ⟨s0, n, n + 1, hs0src, hn1K.1, by omega, rfl, ?_, by omega⟩
            show ctr ⟨st.uMap, dset st.sMap s0 (n + 1), _⟩ s0 = some (n + 1)
            simp [ctr, hu, dset_self]
        · rw [hout, List.pairwise_append]
          refine ⟨inv.hdis, List.pairwise_singleton _ _, ?_⟩
          intro a ha b hb
          rw [List.mem_singleton] at hb
          rw [hb]
          show TCon.s a ≠ copyName s0 n
          rcases inv.hsrc a ha with ⟨h1, _, _⟩ | ⟨t, nc, m, ht, h1n, hnKt, heq, hctr, hlt⟩
          · intro hEq
            exact H1 s0 hs0src n (by omega) hn1K.1
              (hEq ▸ ctgSrcs_subset_allEvents h1)
          · intro hEq
            rw [heq] at hEq
            rcases H2 t ht s0 hs0src nc (by omega) n (by omega) h1n hn1K.1 hEq with ⟨hts, hns⟩
            have hcc : ctr st t = some n := by
              rw [hts]
              simp [ctr, hu, hs]
            rw [hcc] at hctr
            injection hctr with hmn
            omega
    · -- contingent link starts from an uncontrollable event: copy via uMap
      have hs0snk : s0 ∈ ctgSinks cs := (inv.huK s0).mp (by rw [hu]; rfl)
      have hn1K := inv.huB s0 n hu
      have hout : ctgs (st.out ++
          [TCon.req s0 (copyName s0 n) (some 0) (some 0) (equalityName s0 (copyName s0 n)),
           TCon.ctg (copyName s0 n) e0 lb ub nm]) =
          ctgs st.out ++ [TCon.ctg (copyName s0 n) e0 lb ub nm] := by
        simp [ctgs, List.filter_append, TCon.isCtg]
      simp only [ppStep, hu]
      refine ⟨?_, ?_, ?_, inv.hsNS, ?_, ?_, ?_⟩ <;> dsimp only
      · intro t
        by_cases ht : t = s0
        · rw [ht, dset_self]
          simpa using hs0snk
        · rw [dset_ne _ _ _ ht]
          exact inv.huK t
      · intro t m h
        by_cases ht : t = s0
        · rw [ht, dset_self] at h
          cases h
          exact ⟨by omega, by omega⟩
        · rw [dset_ne _ _ _ ht] at h
          have := inv.huB t m h
          exact ⟨this.1, by omega⟩
      · intro t m h
        have := inv.hsB t m h
        exact ⟨this.1, by omega⟩
      · rw [hout]
        intro c' hc'
        rcases List.mem_append.mp hc' with h | h
        · exact inv.hsnk c' h
        · rw [List.mem_singleton] at h
          rw [h]
          exact he0snk
      · rw [hout]
        intro c' hc'
        rcases List.mem_append.mp hc' with h | h
        · rcases inv.hsrc c' h with ⟨h1, h2, h3⟩ | ⟨t, nc, m, ht, h1n, hnKt, heq, hctr, hlt⟩
          · left
            exact ⟨h1, h2, h3⟩
          · right
            by_cases hts : t = s0
            · have hcc : ctr st t = some n := by
                rw [hts]
                simp [ctr, hu]
              rw [hcc] at hctr
              injection hctr with hmn
              refine ⟨t, nc, n + 1, ht, h1n, hnKt, heq, ?_, by omega⟩
              show ctr ⟨dset st.uMap s0 (n + 1), st.sMap, _⟩ t = some (n + 1)
              rw [hts]
              simp [ctr, dset_self]
            · refine ⟨t, nc, m, ht, h1n, hnKt, heq, ?_, hlt⟩
              show ctr ⟨dset st.uMap s0 (n + 1), st.sMap, _⟩ t = some m
              simp only [ctr, dset_ne _ _ _ hts]
              exact hctr
        · rw [List.mem_singleton] at h
          rw [h]
          right
          refine ⟨s0, n, n + 1, hs0src, hn1K.1, by omega, rfl, ?_, by omega⟩
          show ctr ⟨dset st.uMap s0 (n + 1), st.sMap, _⟩ s0 = some (n + 1)
          simp [ctr, dset_self]
      · rw [hout, List.pairwise_append]
        refine ⟨inv.hdis, List.pairwise_singleton _ _, ?_⟩
        intro a ha b hb
        rw [List.mem_singleton] at hb
        rw [hb]
        show TCon.s a ≠ copyName s0 n
        rcases inv.hsrc a ha with ⟨h1, _, _⟩ | ⟨t, nc, m, ht, h1n, hnKt, heq, hctr, hlt⟩
        · intro hEq
          exact H1 s0 hs0src n (by omega) hn1K.1
            (hEq ▸ ctgSrcs_subset_allEvents h1)
        · intro hEq
          rw [heq] at hEq
          rcases H2 t ht s0 hs0src nc (by omega) n (by omega) h1n hn1K.1 hEq with ⟨hts, hns⟩
          have hcc : ctr st t = some n := by
            rw [hts]
            simp [ctr, hu]
          rw [hcc] at hctr
          injection hctr with hmn
          omega

/-- The invariant propagates through the whole fold. -/
theorem foldl_ppStep_inv {cs : List TCon} (H1 : freshCopyNames cs)
    (H2 : injCopyNames cs) :
    ∀ (rem : List TCon) (st : PPState), (∀ c ∈ rem, c ∈ cs) →
      rem.length ≤ cs.length → PPInv cs rem.length st →
      PPInv cs 0 (rem.foldl ppStep st) := by
  intro rem
  induction rem with
  | nil => intro st _ _ inv; exact inv
  | cons c rem ih =>
    intro st hmem hlen inv
    rw [List.foldl_cons]
    refine ih (ppStep st c) (fun c' h => hmem c' (List.mem_cons_of_mem c h)) ?_ ?_
    · simp at hlen
      omega
    · refine ppStep_inv (hmem c (List.mem_cons_self c rem)) ?_ H1 H2 inv
      simpa using hlen

/-- The invariant holds at the loop's initial state. -/
theorem ppInv_init (cs : List TCon) :
    PPInv cs cs.length ⟨initUMap cs, dempty, []⟩ := by
  refine ⟨?_, ?_, ?_, ?_, ?_, ?_, ?_⟩ <;> dsimp only
  · intro t
    rw [initUMap_eq]
    by_cases h : t ∈ ctgSinks cs <;> simp [h]
  · intro t n h
    rw [initUMap_eq] at h
    by_cases ht : t ∈ ctgSinks cs
    · rw [if_pos ht] at h
      cases h
      omega
    · rw [if_neg ht] at h
      exact Option.noConfusion h
  · intro t n h
    exact Option.noConfusion h
  · intro t h
    exact Bool.noConfusion h
  · intro c' h
    simp [ctgs] at h
  · intro c' h
    simp [ctgs] at h
  · simp [ctgs]

/-- The normalized network satisfies, under fresh copy names, both structural
preconditions of the encoding. -/
theorem preprocess_network_post (cs : List TCon) (H1 : freshCopyNames cs)
    (H2 : injCopyNames cs) :
    noCtgSrcIsCtgSink (preprocess_network cs) ∧
      noSharedCtgSrc (preprocess_network cs) := by
  have inv : PPInv cs 0 (cs.foldl ppStep ⟨initUMap cs, dempty, []⟩) :=
    foldl_ppStep_inv H1 H2 cs _ (fun c h => h) (le_refl _) (ppInv_init cs)
  constructor
  · intro a ha b hb
    have hbe := inv.hsnk b hb
    rcases inv.hsrc a ha with ⟨_, h2, _⟩ | ⟨t, nc, m, ht, h1n, hnKt, heq, _, _⟩
    · intro hEq
      exact h2 (hEq ▸ hbe)
    · intro hEq
      rw [heq] at hEq
      exact H1 t ht nc (by omega) h1n (hEq ▸ ctgSinks_subset_allEvents hbe)
  · exact inv.hdis

/-- The contingent sinks of the output network are exactly those of the
input, in order: the loop replaces sources but never sinks. -/
theorem ctgSinks_foldl_ppStep : ∀ (rem : List TCon) (st : PPState),
    ctgSinks ((rem.foldl ppStep st).out) = ctgSinks st.out ++ ctgSinks rem := by
  intro rem
  induction rem with
  | nil => intro st; simp [ctgSinks, ctgs]
  | cons c rem ih =>
    intro st
    rw [List.foldl_cons, ih (ppStep st c)]
    have hstep : ctgSinks ((ppStep st c).out) = ctgSinks st.out ++ ctgSinks [c] := by
      cases c with
      | req s0 e0 lb ub nm =>
        show ctgSinks (st.out ++ [TCon.req s0 e0 lb ub nm]) = _
        rw [ctgSinks_append]
      | ctg s0 e0 lb ub nm =>
        rcases hu : st.uMap s0 with _ | n
        · rcases hs : st.sMap s0 with _ | n
          · simp only [ppStep, hu, hs]
            show ctgSinks (st.out ++ [TCon.ctg s0 e0 lb ub nm]) = _
            rw [ctgSinks_append]
          · simp only [ppStep, hu, hs]
            show ctgSinks (st.out ++
              [TCon.req s0 (copyName s0 n) (some 0) (some 0)
                 (equalityName s0 (copyName s0 n)),
               TCon.ctg (copyName s0 n) e0 lb ub nm]) = _
            rw [ctgSinks_append]
            simp [ctgSinks, ctgs, TCon.isCtg, TCon.e]
        · simp only [ppStep, hu]
          show ctgSinks (st.out ++
            [TCon.req s0 (copyName s0 n) (some 0) (some 0)
               (equalityName s0 (copyName s0 n)),
             TCon.ctg (copyName s0 n) e0 lb ub nm]) = _
          rw [ctgSinks_append]
          simp [ctgSinks, ctgs, TCon.isCtg, TCon.e]
    rw [hstep, List.append_assoc]
    congr 1
    rw [← ctgSinks_append]
    rfl

/-- The normalized network has the same contingent sinks as the input. -/
theorem ctgSinks_preprocess (cs : List TCon) :
    ctgSinks (preprocess_network cs) = ctgSinks cs := by
  unfold preprocess_network
  rw [ctgSinks_foldl_ppStep]
  simp [ctgSinks, ctgs]

theorem mem_addIfNew {acc : List String} {x y : String} :
    x ∈ addIfNew acc y ↔ x ∈ acc ∨ x = y := by
  unfold addIfNew
  by_cases h : y ∈ acc
  · rw [if_pos h]
    constructor
    · exact fun hx => Or.inl hx
    · rintro (hx | rfl)
      · exact hx
      · exact h
  · rw [if_neg h]
    simp [List.mem_append]

theorem mem_get_events_foldl (l : List TCon) : ∀ (acc : List String) (x : String),
    x ∈ l.foldl (fun acc c => addIfNew (addIfNew acc c.s) c.e) acc ↔
      x ∈ acc ∨ ∃ c ∈ l, x = TCon.s c ∨ x = TCon.e c := by
  induction l with
  | nil => intro acc x; simp
  | cons c l ih =>
    intro acc x
    rw [List.foldl_cons, ih]
    rw [mem_addIfNew, mem_addIfNew]
    constructor
    · rintro (((hx | hx) | hx) | ⟨c', hc', hx⟩)
      · exact Or.inl hx
      · exact Or.inr ⟨c, List.mem_cons_self c l, Or.inl hx⟩
      · exact Or.inr ⟨c, List.mem_cons_self c l, Or.inr hx⟩
      · exact Or.inr ⟨c', List.mem_cons_of_mem c hc', hx⟩
    · rintro (hx | ⟨c', hc', hx⟩)
      · exact Or.inl (Or.inl (Or.inl hx))
      · rcases List.mem_cons.mp hc' with rfl | hc'
        · rcases hx with hx | hx
          · exact Or.inl (Or.inl (Or.inr hx))
          · exact Or.inl (Or.inr hx)
        · exact Or.inr ⟨c', hc', hx⟩

theorem mem_get_events {cs : List TCon} {x : String} :
    x ∈ get_events cs ↔ ∃ c ∈ cs, x = TCon.s c ∨ x = TCon.e c := by
  unfold get_events
  rw [mem_get_events_foldl]
  simp

theorem src_mem_get_events {cs : List TCon} {c : TCon} (hc : c ∈ cs) :
    TCon.s c ∈ get_events cs :=
  mem_get_events.mpr ⟨c, hc, Or.inl rfl⟩

theorem snk_mem_get_events {cs : List TCon} {c : TCon} (hc : c ∈ cs) :
    TCon.e c ∈ get_events cs :=
  mem_get_events.mpr ⟨c, hc, Or.inr rfl⟩

theorem mem_uKeysL {cs : List TCon} {vi vj : String}
    (hi : vi ∈ get_events cs) (hj : vj ∈ get_events cs) (hne : vj ≠ vi) :
    (vi, vj) ∈ uKeysL cs := by
  unfold uKeysL
  refine List.mem_flatMap.mpr ⟨vi, hi, ?_⟩
  refine List.mem_map.mpr ⟨vj, ?_, rfl⟩
  rw [List.mem_filter]
  exact ⟨hj, by simpa using hne⟩

theorem mem_wKeysL {cs : List TCon} {c : TCon} (hc : c ∈ cs)
    (hctg : c.isCtg = true) {vj : String} (hj : vj ∈ get_events cs)
    (hji : vj ≠ TCon.s c) (hjk : vj ≠ TCon.e c) :
    (TCon.s c, vj, TCon.e c) ∈ wKeysL cs := by
  unfold wKeysL
  refine List.mem_flatMap.mpr ⟨c, hc, ?_⟩
  cases c with
  | req s e lb ub nm => exact Bool.noConfusion hctg
  | ctg s e lb ub nm =>
    refine List.mem_map.mpr ⟨vj, ?_, rfl⟩
    rw [List.mem_filter]
    refine ⟨hj, ?_⟩
    have h1 : vj ≠ s := hji
    have h2 : vj ≠ e := hjk
    simp [h1, h2]

theorem pairwise_of_forall_mem {α : Type} {R : α → α → Prop} :
    ∀ {l : List α}, (∀ a ∈ l, ∀ b ∈ l, R a b) → l.Pairwise R := by
  intro l
  induction l with
  | nil => intro _; exact List.Pairwise.nil
  | cons a l ih =>
    intro h
    refine List.Pairwise.cons ?_ (ih ?_)
    · intro b hb
      exact h a (List.mem_cons_self a l) b (List.mem_cons_of_mem a hb)
    · intro x hx y hy
      exact h x (List.mem_cons_of_mem a hx) y (List.mem_cons_of_mem a hy)

/-- Network whose event names collide with the synthesized copy names:
`A` is uncontrollable (sink of `c1`) and also sources `c2`, so `c2` is
redirected to the copy `A1` — which is already an event of the network. -/
def collisionNet : List TCon :=
  [TCon.ctg "B" "A" 1 2 "c1", TCon.ctg "A" "C" 1 2 "c2",
   TCon.ctg "A1" "D" 1 2 "c3"]

/-- C5 counterexample: on `collisionNet` the output of `preprocess_network`
violates precondition (ii) — the redirected contingent constraint and the
passed-through contingent constraint of `A1` share the source event `A1`. -/
theorem preprocess_preconditions_fail_on_collision :
    ¬ (noCtgSrcIsOtherCtgSink (preprocess_network collisionNet) ∧
       noSharedCtgSrc (preprocess_network collisionNet)) := by
  decide

/-- C5 (amended): for every input network whose synthesized copy names are
fresh — no copy name `source ++ counter` (with a counter the loop can use)
collides with an input event name, and distinct (source, counter) pairs give
distinct copy names — `preprocess_network` returns a network satisfying both
structural preconditions: no contingent constraint's source event is the
sink of a (even the same) contingent constraint in the output, and no two
contingent constraints in the output share the same source event. -/
theorem preprocess_satisfies_preconditions (cs : List TCon)
    (H1 : freshCopyNames cs) (H2 : injCopyNames cs) :
    noCtgSrcIsCtgSink (preprocess_network cs) ∧
    noCtgSrcIsOtherCtgSink (preprocess_network cs) ∧
    noSharedCtgSrc (preprocess_network cs) := by
  obtain ⟨hstrong, hshared⟩ := preprocess_network_post cs H1 H2
  refine ⟨hstrong, ?_, hshared⟩
  exact pairwise_of_forall_mem
    (fun a ha b hb => ⟨hstrong a ha b hb, hstrong b hb a ha⟩)

/-- Two-contingent network with a shared source, used as the C5 witness. -/
def sharedSrcNet : List TCon :=
  [TCon.ctg "A" "C" 1 2 "c", TCon.ctg "A" "D" 3 4 "d"]

/-- C5 witness: the amended theorem applies to a network that actually
triggers the copy-and-redirect rewrite. -/
theorem preprocess_satisfies_preconditions_witness :
    freshCopyNames sharedSrcNet ∧ injCopyNames sharedSrcNet ∧
    (noCtgSrcIsCtgSink (preprocess_network sharedSrcNet) ∧
     noCtgSrcIsOtherCtgSink (preprocess_network sharedSrcNet) ∧
     noSharedCtgSrc (preprocess_network sharedSrcNet)) :=
  ⟨by decide, by decide,
   preprocess_satisfies_preconditions sharedSrcNet (by decide) (by decide)⟩

/-- Degenerate self-loop contingent constraint: its source is its own sink,
which is not "the sink of another contingent constraint". -/
def selfLoopNet : List TCon := [TCon.ctg "A" "A" 1 2 "c"]

/-- C9 counterexample: `selfLoopNet` satisfies both preconditions as the
claim words them ("another contingent constraint", "two contingent
constraints"), yet `preprocess_network` rewrites it — the source `A` is in
the uncontrollable table because it is the sink of the constraint itself, so
a copy event `A1` and an equality constraint are injected. -/
theorem preprocess_not_identity_on_selfLoop :
    noCtgSrcIsOtherCtgSink selfLoopNet ∧ noSharedCtgSrc selfLoopNet ∧
    preprocess_network selfLoopNet ≠ selfLoopNet ∧
    get_events (preprocess_network selfLoopNet) ≠ get_events selfLoopNet := by
  refine ⟨by decide, by decide, by decide, by decide⟩

/-- When every remaining contingent source is absent from both dictionaries
and the remaining contingent sources are pairwise distinct, the loop appends
every constraint unchanged. -/
theorem foldl_ppStep_id : ∀ (rem : List TCon) (st : PPState),
    (∀ c ∈ ctgs rem, st.uMap (TCon.s c) = none) →
    (∀ c ∈ ctgs rem, st.sMap (TCon.s c) = none) →
    (ctgs rem).Pairwise (fun a b => TCon.s a ≠ TCon.s b) →
    (rem.foldl ppStep st).out = st.out ++ rem := by
  intro rem
  induction rem with
  | nil => intro st _ _ _; simp
  | cons c rem ih =>
    intro st hu hs hp
    cases c with
    | req s0 e0 lb ub nm =>
      rw [List.foldl_cons]
      have hctgs : ctgs (TCon.req s0 e0 lb ub nm :: rem) = ctgs rem :=
        ctgs_cons_req s0 e0 lb ub nm rem
      rw [hctgs] at hu hs hp
      rw [ih (ppStep st (TCon.req s0 e0 lb ub nm)) hu hs hp]
      show (st.out ++ [TCon.req s0 e0 lb ub nm]) ++ rem = _
      rw [List.append_assoc]
      rfl
    | ctg s0 e0 lb ub nm =>
      have hctgs : ctgs (TCon.ctg s0 e0 lb ub nm :: rem) =
          TCon.ctg s0 e0 lb ub nm :: ctgs rem :=
        ctgs_cons_ctg s0 e0 lb ub nm rem
      rw [hctgs] at hu hs hp
      have hu0 : st.uMap s0 = none :=
        hu _ (List.mem_cons_self _ _)
      have hs0 : st.sMap s0 = none :=
        hs _ (List.mem_cons_self _ _)
      rw [List.foldl_cons]
      have hstep : ppStep st (TCon.ctg s0 e0 lb ub nm) =
          ⟨st.uMap, dset st.sMap s0 1, st.out ++ [TCon.ctg s0 e0 lb ub nm]⟩ := by
        simp [ppStep, hu0, hs0]
      rw [hstep]
      rw [List.pairwise_cons] at hp
      have hres := ih ⟨st.uMap, dset st.sMap s0 1, st.out ++ [TCon.ctg s0 e0 lb ub nm]⟩
        (fun c' hc' => hu c' (List.mem_cons_of_mem _ hc'))
        (fun c' hc' => by
          show dset st.sMap s0 1 (TCon.s c') = none
          have hne : TCon.s c' ≠ s0 := Ne.symm (hp.1 c' hc')
          rw [dset_ne _ _ _ hne]
          exact hs c' (List.mem_cons_of_mem _ hc')) hp.2
      rw [hres]
      show (st.out ++ [TCon.ctg s0 e0 lb ub nm]) ++ rem = _
      rw [List.append_assoc]
      rfl

/-- C9 (amended): if the input network satisfies the preconditions in their
strong form — no contingent constraint's source is the sink of any
contingent constraint, oneself included (which the claim's "another"
phrasing misses, as the self-loop counterexample shows), and no two
contingent constraints share a source — then `preprocess_network` is the
identity: the same constraint list, hence the same events, with no injected
copies or equalities. -/
theorem preprocess_identity_on_wellformed (cs : List TCon)
    (h1 : noCtgSrcIsCtgSink cs) (h2 : noSharedCtgSrc cs) :
    preprocess_network cs = cs ∧
    get_events (preprocess_network cs) = get_events cs := by
  have hmain : preprocess_network cs = cs := by
    unfold preprocess_network
    rw [foldl_ppStep_id cs ⟨initUMap cs, dempty, []⟩ ?_ ?_ h2]
    · rfl
    · intro c hc
      show initUMap cs (TCon.s c) = none
      rw [initUMap_eq]
      rw [if_neg]
      intro hmem
      rcases List.mem_map.mp hmem with ⟨b, hb, hbe⟩
      exact h1 c hc b hb hbe.symm
    · intro c _
      rfl
  exact ⟨hmain, by rw [hmain]⟩

/-- Well-formed network used as the C9 witness. -/
def wellFormedNet : List TCon :=
  [TCon.ctg "A" "C" 1 2 "c", TCon.req "C" "D" (some 0) (some 5) "r"]

/-- C9 witness: the amended idempotence theorem applies to a well-formed
network with one contingent and one requirement constraint. -/
theorem preprocess_identity_on_wellformed_witness :
    noCtgSrcIsCtgSink wellFormedNet ∧ noSharedCtgSrc wellFormedNet ∧
    (preprocess_network wellFormedNet = wellFormedNet ∧
     get_events (preprocess_network wellFormedNet) = get_events wellFormedNet) :=
  ⟨by decide, by decide,
   preprocess_identity_on_wellformed wellFormedNet (by decide) (by decide)⟩

/-- C6 counterexample: `collisionNet` is structurally valid (distinct
contingent sinks, well-ordered bounds, no degenerate endpoints), yet on the
normalized network the family-(7) loop is not safe: the redirected
constraint `(A1, C)` and the passed-through constraint `(A1, D)` violate the
assertion `vm != vi`, so the encoding fails on a network produced by
`preprocess_network` from a structurally valid input. -/
theorem family7_unsafe_on_collision :
    structurallyValid collisionNet ∧
    ¬ family7_safe (preprocess_network collisionNet) := by
  refine ⟨by decide, by decide⟩

/-- C6 (amended): on the network produced by `preprocess_network` from a
structurally valid input whose synthesized copy names are fresh, the
family-(7) loop is total: for every pair of distinct contingent constraints
`(i, k)` and `(m, j)` the assertion `m ≠ i` holds and the `w`-table lookups
`w(i, j, k)` and `w(i, m, k)` and the `u`-table lookup `u(j, m)` all
succeed. -/
theorem family7_total_on_valid (cs : List TCon) (hv : structurallyValid cs)
    (H1 : freshCopyNames cs) (H2 : injCopyNames cs) :
    family7_safe (preprocess_network cs) := by
  obtain ⟨hstrong, hshared⟩ := preprocess_network_post cs H1 H2
  have hnodup : (ctgSinks (preprocess_network cs)).Nodup := by
    rw [ctgSinks_preprocess]
    exact hv.2
  intro c1 hc1 c2 hc2 hne
  have hc1' : c1 ∈ preprocess_network cs := List.mem_of_mem_filter hc1
  have hc2' : c2 ∈ preprocess_network cs := List.mem_of_mem_filter hc2
  have hc1ctg : c1.isCtg = true := (mem_ctgs.mp hc1).2
  have hsnkne : TCon.e c2 ≠ TCon.e c1 := by
    intro hEq
    exact hne.symm (List.inj_on_of_nodup_map hnodup hc2 hc1 hEq)
  have hms : TCon.s c2 ≠ TCon.s c1 := by
    have hsymm : Symmetric (fun a b : TCon => TCon.s a ≠ TCon.s b) :=
      fun _ _ h => h.symm
    exact (List.Pairwise.forall hsymm hshared) hc2 hc1 hne.symm
  refine ⟨hms, ?_, ?_, ?_⟩
  · exact mem_wKeysL hc1' hc1ctg (snk_mem_get_events hc2')
      (Ne.symm (hstrong c1 hc1 c2 hc2)) hsnkne
  · exact mem_wKeysL hc1' hc1ctg (src_mem_get_events hc2')
      hms (hstrong c2 hc2 c1 hc1)
  · exact mem_uKeysL (snk_mem_get_events hc2') (src_mem_get_events hc2')
      (hstrong c2 hc2 c2 hc2)

/-- Chained-contingent network used as the C6 witness: the source of the
second contingent constraint is the sink of the first, so normalization
actually rewrites it. -/
def chainedNet : List TCon :=
  [TCon.ctg "A" "C" 1 2 "c", TCon.ctg "C" "D" 1 2 "d"]

/-- C6 witness: the amended totality theorem applies to `chainedNet`. -/
theorem family7_total_on_valid_witness :
    structurallyValid chainedNet ∧ freshCopyNames chainedNet ∧
    injCopyNames chainedNet ∧ family7_safe (preprocess_network chainedNet) :=
  ⟨by decide, by decide, by decide,
   family7_total_on_valid chainedNet (by decide) (by decide) (by decide)⟩
